import Mathlib

/-!
# Verification of the federation response validation layer

This file gives a shallow embedding of `federationtypes.go` from the
`gomatrixserverlib` repository and proves properties of the event-DAG
ordering (`RespState.Events`), the state/join response validators
(`RespState.Check`, `RespSendJoin.Check`), the single-event authorization
check (`checkAllowedByAuthEvents`) and the invite response wire format
(`RespInvite`).

External collaborators (the signature verifier, the authorization-set
builder `NewAuthEvents`/`AddEvent` and the authorization evaluator
`Allowed`) are not part of the source file; following their interface
contracts they are passed in as function parameters.
-/

/-- Modelled from the spec: an `Event` (defined outside the excerpt) is an
immutable record with a content-derived identifier, a type, an optional
state key (absence = not a state event) and an ordered list of references
(by identifier) to its authorization dependency events. -/
structure Event where
  eventID : String
  type : String
  stateKey : Option String
  authEventIDs : List String
deriving DecidableEq

/-- Modelled from the spec: `StateKeyTuple` (defined outside the excerpt)
is the pair `(Type, StateKey)` identifying a slot in room state. -/
structure StateKeyTuple where
  eventType : String
  stateKey : String
deriving DecidableEq

/-- The distinguishable error outcomes produced by `federationtypes.go`
(in Go these are distinct `fmt.Errorf` messages). -/
inductive FedError where
  /-- "missing auth event with ID %q for event %q" -/
  | MissingAuthEvent (referenced dependent : String)
  /-- "auth event cycle for ID %q" -/
  | AuthEventCycle (id : String)
  /-- "event %q does not have a state key" -/
  | NotStateEvent (id : String)
  /-- "duplicate state key tuple (%q, %q)" -/
  | DuplicateStateKey (typ key : String)
  /-- an error propagated unchanged from `VerifyAllEventSignatures` -/
  | SignatureFailure (msg : String)
  /-- an error returned by the authorization-set builder's `AddEvent` -/
  | AuthEventsAddFailure (msg : String)
  /-- "event %q is not allowed by its auth_events: %s" -/
  | NotAuthorized (id reason : String)
  /-- "event %q is not allowed by the supplied state: %s" -/
  | NotAuthorizedBySuppliedState (id reason : String)
deriving DecidableEq

/-- `RespState`: state events plus the authorization chain backing them. -/
structure RespState where
  StateEvents : List Event
  AuthEvents : List Event
deriving DecidableEq

/-- Association-list lookup, modelling a Go `map[string]*Event` read. -/
def lookupEvent : List (String × Event) → String → Option Event
  | [], _ => none
  | (k, v) :: rest, ref => if k = ref then some v else lookupEvent rest ref

/-- Association-list insertion with overwrite, modelling a Go map write. -/
def insertEntry : List (String × Event) → String → Event → List (String × Event)
  | [], k, v => [(k, v)]
  | (k', v') :: rest, k, v =>
    if k' = k then (k', v) :: rest else (k', v') :: insertEntry rest k v

/-- The event index built at the start of `RespState.Events`: state events
first, then auth events, later writes overwriting earlier ones. -/
def buildIndex (r : RespState) : List (String × Event) :=
  (r.StateEvents ++ r.AuthEvents).foldl (fun m e => insertEntry m e.eventID e) []

/-- Outcome of one scan over the auth-event references of the event on top
of the work stack (the inner `for` loop of `RespState.Events`). -/
inductive ScanResult where
  | done
  | missing (ref : String)
  | cyc (ref : String)
  | push (ref : String) (e : Event)
deriving DecidableEq

/-- One left-to-right scan over the references of the stack's top event:
stop at the first reference that is missing (error), queued but not yet
outputted (cycle error) or not yet visited (push). References already
outputted are skipped. -/
def scanRefs (entries : List (String × Event)) (queued outputted : List String) :
    List String → ScanResult
  | [] => .done
  | ref :: rest =>
    match lookupEvent entries ref with
    | none => .missing ref
    | some authEvent =>
      if ref ∈ outputted then scanRefs entries queued outputted rest
      else if ref ∈ queued then .cyc ref
      else .push ref authEvent

theorem scanRefs_missing {entries : List (String × Event)} {queued outputted : List String}
    {refs : List String} {ref : String}
    (h : scanRefs entries queued outputted refs = .missing ref) :
    ref ∈ refs ∧ lookupEvent entries ref = none := by
  induction refs with
  | nil => simp [scanRefs] at h
  | cons a rest ih =>
    rw [scanRefs] at h
    rcases ha : lookupEvent entries a with _ | e <;> rw [ha] at h
    · simp only [ScanResult.missing.injEq] at h
      subst h
      exact ⟨List.mem_cons_self a rest, ha⟩
    · by_cases hout : a ∈ outputted
      · simp only [hout, if_true] at h
        obtain ⟨h1, h2⟩ := ih h
        exact ⟨List.mem_cons_of_mem _ h1, h2⟩
      · by_cases hq : a ∈ queued <;> simp [hout, hq] at h

theorem scanRefs_cyc {entries : List (String × Event)} {queued outputted : List String}
    {refs : List String} {c : String}
    (h : scanRefs entries queued outputted refs = .cyc c) :
    c ∈ refs ∧ c ∈ queued ∧ c ∉ outputted ∧ (lookupEvent entries c).isSome := by
  induction refs with
  | nil => simp [scanRefs] at h
  | cons a rest ih =>
    rw [scanRefs] at h
    rcases ha : lookupEvent entries a with _ | e <;> rw [ha] at h
    · simp at h
    · by_cases hout : a ∈ outputted
      · simp only [hout, if_true] at h
        obtain ⟨h1, h2⟩ := ih h
        exact ⟨List.mem_cons_of_mem _ h1, h2⟩
      · by_cases hq : a ∈ queued
        · simp only [hout, if_false, hq, if_true, ScanResult.cyc.injEq] at h
          subst h
          exact ⟨List.mem_cons_self a rest, hq, hout, by rw [ha]; rfl⟩
        · simp [hout, hq] at h

theorem scanRefs_push {entries : List (String × Event)} {queued outputted : List String}
    {refs : List String} {pk : String} {pe : Event}
    (h : scanRefs entries queued outputted refs = .push pk pe) :
    pk ∈ refs ∧ lookupEvent entries pk = some pe ∧ pk ∉ queued ∧ pk ∉ outputted := by
  induction refs with
  | nil => simp [scanRefs] at h
  | cons a rest ih =>
    rw [scanRefs] at h
    rcases ha : lookupEvent entries a with _ | e <;> rw [ha] at h
    · simp at h
    · by_cases hout : a ∈ outputted
      · simp only [hout, if_true] at h
        obtain ⟨h1, h2⟩ := ih h
        exact ⟨List.mem_cons_of_mem _ h1, h2⟩
      · by_cases hq : a ∈ queued
        · simp [hout, hq] at h
        · simp only [hout, if_false, hq, ScanResult.push.injEq] at h
          obtain ⟨h1, h2⟩ := h
          subst h1; subst h2
          exact ⟨List.mem_cons_self a rest, ha, hq, hout⟩

theorem scanRefs_done {entries : List (String × Event)} {queued outputted : List String}
    {refs : List String}
    (h : scanRefs entries queued outputted refs = .done) :
    ∀ ref ∈ refs, ∃ e, lookupEvent entries ref = some e ∧ ref ∈ outputted := by
  induction refs with
  | nil => simp
  | cons a rest ih =>
    rw [scanRefs] at h
    rcases ha : lookupEvent entries a with _ | e <;> rw [ha] at h
    · simp at h
    · by_cases hout : a ∈ outputted
      · simp only [hout, if_true] at h
        intro ref href
        rcases List.mem_cons.mp href with rfl | hmem
        · exact ⟨e, ha, hout⟩
        · exact ih h ref hmem
      · by_cases hq : a ∈ queued <;> simp [hout, hq] at h

theorem lookupEvent_mem {entries : List (String × Event)} {k : String} {v : Event}
    (h : lookupEvent entries k = some v) : (k, v) ∈ entries := by
  induction entries with
  | nil => simp [lookupEvent] at h
  | cons p rest ih =>
    obtain ⟨k', v'⟩ := p
    rw [lookupEvent] at h
    by_cases hk : k' = k
    · simp only [hk, if_true, Option.some.injEq] at h
      subst hk; subst h
      exact List.mem_cons_self _ _
    · simp only [hk, if_false] at h
      exact List.mem_cons_of_mem _ (ih h)

theorem lookupEvent_isSome_mem_keys {entries : List (String × Event)} {k : String}
    (h : (lookupEvent entries k).isSome) : k ∈ entries.map Prod.fst := by
  rcases hl : lookupEvent entries k with _ | v
  · rw [hl] at h; simp at h
  · exact List.mem_map.mpr ⟨(k, v), lookupEvent_mem hl, rfl⟩

/-- The depth-first emission loop of `RespState.Events` (the
`LoopProcessTopOfStack` loop).  The stack's head is the stack top; each
stack entry is a map key paired with the event stored under it, matching
the Go code's `*Event` pointers into the index map.  Returns the extended
result list together with the final `queued` and `outputted` sets. -/
def eventsLoop (entries : List (String × Event)) :
    List (String × Event) → List String → List String → List (String × Event) →
    Except FedError (List (String × Event) × List String × List String)
  | [], queued, outputted, result => .ok (result, queued, outputted)
  | (tk, tv) :: rest, queued, outputted, result =>
    match h : scanRefs entries queued outputted tv.authEventIDs with
    | .missing ref => .error (.MissingAuthEvent ref tv.eventID)
    | .cyc ref => .error (.AuthEventCycle ref)
    | .push pk pe =>
      eventsLoop entries ((pk, pe) :: (tk, tv) :: rest) (pk :: queued) outputted result
    | .done => eventsLoop entries rest queued (tk :: outputted) (result ++ [(tk, tv)])
termination_by stack queued _ _ =>
  (((entries.map Prod.fst).toFinset \ queued.toFinset).card, stack.length)
decreasing_by
  · apply Prod.Lex.left
    obtain ⟨_, hlk, hq, _⟩ := scanRefs_push h
    have hkeys : pk ∈ (entries.map Prod.fst).toFinset :=
      List.mem_toFinset.mpr (lookupEvent_isSome_mem_keys (by rw [hlk]; rfl))
    have hmem : pk ∈ (entries.map Prod.fst).toFinset \ queued.toFinset :=
      Finset.mem_sdiff.mpr ⟨hkeys, fun hc => hq (List.mem_toFinset.mp hc)⟩
    have hsub : (entries.map Prod.fst).toFinset \ (pk :: queued).toFinset =
        ((entries.map Prod.fst).toFinset \ queued.toFinset).erase pk := by
      rw [List.toFinset_cons, Finset.sdiff_insert]
    rw [hsub]
    exact Finset.card_erase_lt_of_mem hmem
  · apply Prod.Lex.right
    simp

/-- The outer loop of `RespState.Events`: iterate over the index entries,
skipping events already outputted, otherwise seeding the work stack with
the event and running the depth-first emission loop. -/
def eventsOuter (entries : List (String × Event)) :
    List (String × Event) → List String → List String → List (String × Event) →
    Except FedError (List (String × Event))
  | [], _, _, result => .ok result
  | (k, v) :: rest, queued, outputted, result =>
    if k ∈ outputted then eventsOuter entries rest queued outputted result
    else
      match eventsLoop entries [(k, v)] queued outputted result with
      | .error e => .error e
      | .ok (result', queued', outputted') =>
        eventsOuter entries rest queued' outputted' result'

/-- `RespState.Events`: combine auth events and state events into an order
where every event comes after its auth events; each event appears once;
errors on missing auth events or auth-event cycles. -/
def RespState.Events (r : RespState) : Except FedError (List Event) :=
  let entries := buildIndex r
  (eventsOuter entries entries [] [] []).map (List.map Prod.snd)

/-- The auth-dependency relation induced by an event index: `x` depends on
`y` when the event stored under `x` lists `y` among its auth events. -/
def depID (entries : List (String × Event)) (x y : String) : Prop :=
  ∃ e, lookupEvent entries x = some e ∧ y ∈ e.authEventIDs

theorem mem_lookupEvent {entries : List (String × Event)}
    (hnd : (entries.map Prod.fst).Nodup) {k : String} {v : Event}
    (h : (k, v) ∈ entries) : lookupEvent entries k = some v := by
  induction entries with
  | nil => simp at h
  | cons p rest ih =>
    obtain ⟨k', v'⟩ := p
    simp only [List.map_cons, List.nodup_cons] at hnd
    rcases List.mem_cons.mp h with heq | hmem
    · cases heq
      rw [lookupEvent]
      simp
    · rw [lookupEvent]
      have hne : k' ≠ k := by
        intro hc
        exact hnd.1 (hc ▸ List.mem_map.mpr ⟨(k, v), hmem, rfl⟩)
      simp only [hne, if_false]
      exact ih hnd.2 hmem

theorem mem_keys_lookupEvent {entries : List (String × Event)} {k : String}
    (h : k ∈ entries.map Prod.fst) : (lookupEvent entries k).isSome := by
  induction entries with
  | nil => simp at h
  | cons p rest ih =>
    obtain ⟨k', v'⟩ := p
    rw [lookupEvent]
    by_cases hk : k' = k
    · simp [hk]
    · simp only [hk, if_false]
      simp only [List.map_cons, List.mem_cons] at h
      rcases h with h | h
      · exact absurd h.symm hk
      · exact ih h

theorem append_singleton_split {α : Type} {l l₁ l₂ : List α} {x p : α}
    (h : l ++ [x] = l₁ ++ p :: l₂) :
    (∃ l₂', l = l₁ ++ p :: l₂' ∧ l₂ = l₂' ++ [x]) ∨ (l₁ = l ∧ p = x ∧ l₂ = []) := by
  rcases l₂.eq_nil_or_concat with rfl | ⟨l₂', y, rfl⟩
  · right
    have hlen : l.length = l₁.length := by
      have := congrArg List.length h
      simp at this
      omega
    obtain ⟨h1, h2⟩ := List.append_inj h hlen
    simp only [List.cons.injEq, and_true] at h2
    exact ⟨h1.symm, h2.symm, rfl⟩
  · left
    rw [List.concat_eq_append] at h
    rw [show l₁ ++ p :: (l₂' ++ [y]) = (l₁ ++ p :: l₂') ++ [y] by simp] at h
    have hlen : l.length = (l₁ ++ p :: l₂').length := by
      have := congrArg List.length h
      simp at this ⊢
      omega
    obtain ⟨h1, h2⟩ := List.append_inj h hlen
    simp only [List.cons.injEq, and_true] at h2
    exact ⟨l₂', h1, by rw [h2, List.concat_eq_append]⟩

theorem map_split {α β : Type} {f : α → β} {l : List α} {a : List β} {b : β} {c : List β}
    (h : l.map f = a ++ b :: c) :
    ∃ A B C, l = A ++ B :: C ∧ A.map f = a ∧ f B = b ∧ C.map f = c := by
  induction a generalizing l with
  | nil =>
    cases l with
    | nil => simp at h
    | cons x t =>
      simp only [List.map_cons, List.nil_append, List.cons.injEq] at h
      exact ⟨[], x, t, rfl, rfl, h.1, h.2⟩
  | cons a₀ arest ih =>
    cases l with
    | nil => simp at h
    | cons x t =>
      simp only [List.map_cons, List.cons_append, List.cons.injEq] at h
      obtain ⟨A, B, C, h1, h2, h3, h4⟩ := ih h.2
      exact ⟨x :: A, B, C, by simp [h1], by simp [h.1, h2], h3, h4⟩

/-- Index of the first occurrence of a string in a list (length if absent). -/
def firstIdx : List String → String → Nat
  | [], _ => 0
  | k :: rest, x => if k = x then 0 else firstIdx rest x + 1

theorem firstIdx_split {L : List String} {x : String} (h : x ∈ L) :
    ∃ l₁ l₂, L = l₁ ++ x :: l₂ ∧ firstIdx L x = l₁.length ∧ x ∉ l₁ := by
  induction L with
  | nil => simp at h
  | cons k rest ih =>
    by_cases hk : k = x
    · exact ⟨[], rest, by rw [hk]; rfl, by simp [firstIdx, hk], by simp⟩
    · have hx : x ∈ rest := by
        rcases List.mem_cons.mp h with rfl | hm
        exacts [absurd rfl hk, hm]
      obtain ⟨l₁, l₂, h1, h2, h3⟩ := ih hx
      refine ⟨k :: l₁, l₂, by rw [h1]; rfl, ?_, ?_⟩
      · simp [firstIdx, hk, h2]
      · intro hc
        rcases List.mem_cons.mp hc with rfl | hm
        exacts [hk rfl, h3 hm]

theorem firstIdx_lt_of_mem_prefix {l₁ : List String} {rest : List String} {y : String}
    (h : y ∈ l₁) : firstIdx (l₁ ++ rest) y < l₁.length := by
  induction l₁ with
  | nil => simp at h
  | cons k t ih =>
    by_cases hk : k = y
    · simp [firstIdx, hk]
    · have hy : y ∈ t := by
        rcases List.mem_cons.mp h with rfl | hm
        exacts [absurd rfl hk, hm]
      simp only [List.cons_append, firstIdx, hk, if_false, List.length_cons]
      exact Nat.succ_lt_succ (ih hy)

theorem transGen_rank {α : Type} {r : α → α → Prop} {rank : α → Nat}
    (hr : ∀ x y, r x y → rank y < rank x) {a b : α}
    (h : Relation.TransGen r a b) : rank b < rank a := by
  induction h with
  | single h1 => exact hr _ _ h1
  | tail _ h2 ih => exact Nat.lt_trans (hr _ _ h2) ih

/-- Every stack entry can reach the stack top through the auth-dependency
relation: the work stack is a dependency chain. -/
theorem stack_reflTransGen {entries : List (String × Event)} :
    ∀ {stack : List (String × Event)} {top : String × Event},
    (∀ p ∈ stack, lookupEvent entries p.1 = some p.2) →
    List.Chain' (fun a b => a.1 ∈ b.2.authEventIDs) stack →
    stack.head? = some top →
    ∀ p ∈ stack, Relation.ReflTransGen (depID entries) p.1 top.1 := by
  intro stack
  induction stack with
  | nil => intro top _ _ h; simp at h
  | cons x rest ih =>
    intro top hlk hchain hhead p hp
    simp only [List.head?_cons, Option.some.injEq] at hhead
    subst hhead
    rcases List.mem_cons.mp hp with rfl | hmem
    · exact Relation.ReflTransGen.refl
    · cases rest with
      | nil => simp at hmem
      | cons y t =>
        have hrel : x.1 ∈ y.2.authEventIDs := (List.chain'_cons.mp hchain).1
        have hy : Relation.ReflTransGen (depID entries) p.1 y.1 :=
          ih (fun q hq => hlk q (List.mem_cons_of_mem _ hq))
            (List.chain'_cons.mp hchain).2 rfl p hmem
        exact hy.tail ⟨y.2, hlk y (List.mem_cons_of_mem _ (List.mem_cons_self _ _)), hrel⟩

/-- The invariant of the depth-first emission loop of `RespState.Events`. -/
structure LoopInv (entries stack : List (String × Event))
    (queued outputted : List String) (result : List (String × Event)) : Prop where
  stackLookup : ∀ p ∈ stack, lookupEvent entries p.1 = some p.2
  resultLookup : ∀ p ∈ result, lookupEvent entries p.1 = some p.2
  outEq : ∀ k, k ∈ outputted ↔ k ∈ result.map Prod.fst
  resultNodup : (result.map Prod.fst).Nodup
  stackNotOut : ∀ p ∈ stack, p.1 ∉ outputted
  chain : List.Chain' (fun a b => a.1 ∈ b.2.authEventIDs) stack
  queuedCover : ∀ k ∈ queued, k ∉ outputted → k ∈ stack.map Prod.fst
  topo : ∀ l₁ p l₂, result = l₁ ++ p :: l₂ → ∀ ref ∈ p.2.authEventIDs, ref ∈ l₁.map Prod.fst

theorem eventsLoop_nil_eq (entries : List (String × Event)) (queued outputted : List String)
    (result : List (String × Event)) :
    eventsLoop entries [] queued outputted result = .ok (result, queued, outputted) := by
  simp [eventsLoop]

theorem eventsLoop_missing_eq {entries : List (String × Event)} {tk : String} {tv : Event}
    {rest : List (String × Event)} {queued outputted : List String}
    {result : List (String × Event)} {ref : String}
    (h : scanRefs entries queued outputted tv.authEventIDs = .missing ref) :
    eventsLoop entries ((tk, tv) :: rest) queued outputted result =
      .error (.MissingAuthEvent ref tv.eventID) := by
  rw [eventsLoop]
  split <;> simp_all

theorem eventsLoop_cyc_eq {entries : List (String × Event)} {tk : String} {tv : Event}
    {rest : List (String × Event)} {queued outputted : List String}
    {result : List (String × Event)} {ref : String}
    (h : scanRefs entries queued outputted tv.authEventIDs = .cyc ref) :
    eventsLoop entries ((tk, tv) :: rest) queued outputted result =
      .error (.AuthEventCycle ref) := by
  rw [eventsLoop]
  split <;> simp_all

theorem eventsLoop_push_eq {entries : List (String × Event)} {tk : String} {tv : Event}
    {rest : List (String × Event)} {queued outputted : List String}
    {result : List (String × Event)} {pk : String} {pe : Event}
    (h : scanRefs entries queued outputted tv.authEventIDs = .push pk pe) :
    eventsLoop entries ((tk, tv) :: rest) queued outputted result =
      eventsLoop entries ((pk, pe) :: (tk, tv) :: rest) (pk :: queued) outputted result := by
  conv_lhs => rw [eventsLoop]
  split <;> simp_all

theorem eventsLoop_done_eq {entries : List (String × Event)} {tk : String} {tv : Event}
    {rest : List (String × Event)} {queued outputted : List String}
    {result : List (String × Event)}
    (h : scanRefs entries queued outputted tv.authEventIDs = .done) :
    eventsLoop entries ((tk, tv) :: rest) queued outputted result =
      eventsLoop entries rest queued (tk :: outputted) (result ++ [(tk, tv)]) := by
  conv_lhs => rw [eventsLoop]
  split <;> simp_all

/-- Master characterization of the depth-first emission loop: on success the
invariant carries to the final state with all stack keys emitted; a cycle
error always names an identifier lying on a genuine dependency cycle; a
missing-auth-event error always names an unresolvable reference together
with the event that declared it; no other errors occur. -/
theorem eventsLoop_spec (entries : List (String × Event)) :
    ∀ stack queued outputted result,
    LoopInv entries stack queued outputted result →
    ((∀ res' q' o', eventsLoop entries stack queued outputted result = .ok (res', q', o') →
        LoopInv entries [] q' o' res' ∧ (∀ k ∈ outputted, k ∈ o') ∧ (∀ p ∈ stack, p.1 ∈ o'))
    ∧ (∀ c, eventsLoop entries stack queued outputted result = .error (.AuthEventCycle c) →
        Relation.TransGen (depID entries) c c)
    ∧ (∀ a b, eventsLoop entries stack queued outputted result = .error (.MissingAuthEvent a b) →
        lookupEvent entries a = none ∧
          ∃ k e, lookupEvent entries k = some e ∧ e.eventID = b ∧ a ∈ e.authEventIDs)
    ∧ (∀ err, eventsLoop entries stack queued outputted result = .error err →
        (∃ c, err = .AuthEventCycle c) ∨ (∃ a b, err = .MissingAuthEvent a b))) := by
  intro stack queued outputted result
  induction stack, queued, outputted, result using eventsLoop.induct entries with
  | case1 queued outputted result =>
    intro inv
    refine ⟨?_, ?_, ?_, ?_⟩
    · intro res' q' o' h'
      rw [eventsLoop_nil_eq] at h'
      simp only [Except.ok.injEq, Prod.mk.injEq] at h'
      obtain ⟨rfl, rfl, rfl⟩ := h'
      exact ⟨inv, fun k hk => hk, by simp⟩
    · intro c h'
      rw [eventsLoop_nil_eq] at h'
      simp at h'
    · intro a b h'
      rw [eventsLoop_nil_eq] at h'
      simp at h'
    · intro err h'
      rw [eventsLoop_nil_eq] at h'
      simp at h'
  | case2 tk tv rest queued outputted result ref h =>
    intro inv
    refine ⟨?_, ?_, ?_, ?_⟩
    · intro res' q' o' h'
      rw [eventsLoop_missing_eq h] at h'
      simp at h'
    · intro c h'
      rw [eventsLoop_missing_eq h] at h'
      simp at h'
    · intro a b h'
      rw [eventsLoop_missing_eq h] at h'
      simp only [Except.error.injEq, FedError.MissingAuthEvent.injEq] at h'
      obtain ⟨rfl, rfl⟩ := h'
      obtain ⟨href, hnone⟩ := scanRefs_missing h
      exact ⟨hnone, tk, tv, inv.stackLookup (tk, tv) (List.mem_cons_self _ _), rfl, href⟩
    · intro err h'
      rw [eventsLoop_missing_eq h] at h'
      simp only [Except.error.injEq] at h'
      exact Or.inr ⟨ref, tv.eventID, h'.symm⟩
  | case3 tk tv rest queued outputted result ref h =>
    intro inv
    refine ⟨?_, ?_, ?_, ?_⟩
    · intro res' q' o' h'
      rw [eventsLoop_cyc_eq h] at h'
      simp at h'
    · intro c h'
      rw [eventsLoop_cyc_eq h] at h'
      simp only [Except.error.injEq, FedError.AuthEventCycle.injEq] at h'
      subst h'
      obtain ⟨href, hq, hno, _⟩ := scanRefs_cyc h
      have hstk : ref ∈ ((tk, tv) :: rest).map Prod.fst := inv.queuedCover ref hq hno
      obtain ⟨p, hp, hpk⟩ := List.mem_map.mp hstk
      have hrtg : Relation.ReflTransGen (depID entries) p.1 tk :=
        stack_reflTransGen inv.stackLookup inv.chain rfl p hp
      have hstep : depID entries tk ref :=
        ⟨tv, inv.stackLookup (tk, tv) (List.mem_cons_self _ _), href⟩
      have htg : Relation.TransGen (depID entries) p.1 ref :=
        Relation.TransGen.tail' hrtg hstep
      rw [hpk] at htg
      exact htg
    · intro a b h'
      rw [eventsLoop_cyc_eq h] at h'
      simp at h'
    · intro err h'
      rw [eventsLoop_cyc_eq h] at h'
      simp only [Except.error.injEq] at h'
      exact Or.inl ⟨ref, h'.symm⟩
  | case4 tk tv rest queued outputted result pk pe h ih =>
    intro inv
    obtain ⟨hpref, hplk, hpq, hpo⟩ := scanRefs_push h
    have inv' : LoopInv entries ((pk, pe) :: (tk, tv) :: rest) (pk :: queued) outputted result := by
      refine ⟨?_, inv.resultLookup, inv.outEq, inv.resultNodup, ?_, ?_, ?_, inv.topo⟩
      · intro p hp
        rcases List.mem_cons.mp hp with rfl | hp'
        · exact hplk
        · exact inv.stackLookup p hp'
      · intro p hp
        rcases List.mem_cons.mp hp with rfl | hp'
        · exact hpo
        · exact inv.stackNotOut p hp'
      · exact List.chain'_cons.mpr ⟨hpref, inv.chain⟩
      · intro k hk hko
        rcases List.mem_cons.mp hk with rfl | hk'
        · simp
        · have := inv.queuedCover k hk' hko
          simp only [List.map_cons, List.mem_cons] at this ⊢
          tauto
    obtain ⟨okC, cycC, misC, clsC⟩ := ih inv'
    refine ⟨?_, ?_, ?_, ?_⟩
    · intro res' q' o' h'
      rw [eventsLoop_push_eq h] at h'
      obtain ⟨hinv, hmono, hstk⟩ := okC res' q' o' h'
      exact ⟨hinv, hmono, fun p hp => hstk p (List.mem_cons_of_mem _ hp)⟩
    · intro c h'
      rw [eventsLoop_push_eq h] at h'
      exact cycC c h'
    · intro a b h'
      rw [eventsLoop_push_eq h] at h'
      exact misC a b h'
    · intro err h'
      rw [eventsLoop_push_eq h] at h'
      exact clsC err h'
  | case5 tk tv rest queued outputted result h ih =>
    intro inv
    have hdone := scanRefs_done h
    have htknot : tk ∉ result.map Prod.fst := fun hc =>
      inv.stackNotOut (tk, tv) (List.mem_cons_self _ _) ((inv.outEq tk).mpr hc)
    have inv' : LoopInv entries rest queued (tk :: outputted) (result ++ [(tk, tv)]) := by
      refine ⟨?_, ?_, ?_, ?_, ?_, inv.chain.tail, ?_, ?_⟩
      · intro p hp
        exact inv.stackLookup p (List.mem_cons_of_mem _ hp)
      · intro p hp
        rcases List.mem_append.mp hp with hp' | hp'
        · exact inv.resultLookup p hp'
        · simp only [List.mem_singleton] at hp'
          subst hp'
          exact inv.stackLookup (tk, tv) (List.mem_cons_self _ _)
      · intro k
        have hiff := inv.outEq k
        simp only [List.mem_cons, List.map_append, List.mem_append, List.map_cons,
          List.map_nil, List.mem_singleton, hiff]
        tauto
      · simp only [List.map_append, List.map_cons, List.map_nil]
        refine List.nodup_append.mpr ⟨inv.resultNodup, List.nodup_singleton _, ?_⟩
        intro x hx hx'
        simp only [List.mem_singleton] at hx'
        subst hx'
        exact htknot hx
      · intro p hp hpc
        rcases List.mem_cons.mp hpc with heq | hout
        · obtain ⟨r₁, r₂, hsplit⟩ := List.append_of_mem hp
          have hpv : p.2 = tv := by
            have h1 := inv.stackLookup p (List.mem_cons_of_mem _ hp)
            have h2 := inv.stackLookup (tk, tv) (List.mem_cons_self _ _)
            rw [heq] at h1
            rw [h1] at h2
            exact Option.some.inj h2
          have hchain := inv.chain
          rw [hsplit, show (tk, tv) :: (r₁ ++ p :: r₂) = ((tk, tv) :: r₁) ++ (p :: r₂)
            by simp] at hchain
          obtain ⟨_, _, hlink⟩ := List.chain'_append.mp hchain
          have hne : ((tk, tv) :: r₁) ≠ [] := by simp
          obtain ⟨q, hq⟩ := Option.isSome_iff_exists.mp (List.getLast?_isSome.mpr hne)
          have hql : q ∈ (tk, tv) :: r₁ := by
            obtain ⟨hx, hxeq⟩ := List.mem_getLast?_eq_getLast (Option.mem_def.mpr hq)
            rw [hxeq]
            exact List.getLast_mem hx
          have hR : q.1 ∈ p.2.authEventIDs :=
            hlink q (Option.mem_def.mpr hq) p (by simp)
          rw [hpv] at hR
          obtain ⟨e, _, hqout⟩ := hdone q.1 hR
          have hqstack : q ∈ (tk, tv) :: rest := by
            rcases List.mem_cons.mp hql with rfl | hq'
            · exact List.mem_cons_self _ _
            · rw [hsplit]
              exact List.mem_cons_of_mem _ (List.mem_append_left _ hq')
          exact inv.stackNotOut q hqstack hqout
        · exact inv.stackNotOut p (List.mem_cons_of_mem _ hp) hout
      · intro k hk hko
        have hko' : k ∉ outputted := fun hc => hko (List.mem_cons_of_mem _ hc)
        have hkt : k ≠ tk := fun hc => hko (hc ▸ List.mem_cons_self _ _)
        have := inv.queuedCover k hk hko'
        simp only [List.map_cons, List.mem_cons] at this
        rcases this with heq | hmem
        exacts [absurd heq hkt, hmem]
      · intro l₁ p l₂ hsplit ref href
        rcases append_singleton_split hsplit with ⟨l₂', hres, _⟩ | ⟨hl₁, hp, _⟩
        · exact inv.topo l₁ p l₂' hres ref href
        · subst hl₁
          subst hp
          obtain ⟨e, _, hout⟩ := hdone ref href
          exact (inv.outEq ref).mp hout
    obtain ⟨okC, cycC, misC, clsC⟩ := ih inv'
    refine ⟨?_, ?_, ?_, ?_⟩
    · intro res' q' o' h'
      rw [eventsLoop_done_eq h] at h'
      obtain ⟨hinv, hmono, hstk⟩ := okC res' q' o' h'
      refine ⟨hinv, fun k hk => hmono k (List.mem_cons_of_mem _ hk), ?_⟩
      intro p hp
      rcases List.mem_cons.mp hp with rfl | hp'
      · exact hmono tk (List.mem_cons_self _ _)
      · exact hstk p hp'
    · intro c h'
      rw [eventsLoop_done_eq h] at h'
      exact cycC c h'
    · intro a b h'
      rw [eventsLoop_done_eq h] at h'
      exact misC a b h'
    · intro err h'
      rw [eventsLoop_done_eq h] at h'
      exact clsC err h'

/-- Characterization of the outer loop of `RespState.Events` over the index
entries, threading the invariant through successive inner-loop runs. -/
theorem eventsOuter_spec (entries : List (String × Event))
    (hnd : (entries.map Prod.fst).Nodup) :
    ∀ iter queued outputted result,
    (∀ p ∈ iter, p ∈ entries) →
    LoopInv entries [] queued outputted result →
    ((∀ res', eventsOuter entries iter queued outputted result = .ok res' →
        ∃ q' o', LoopInv entries [] q' o' res' ∧ (∀ k ∈ outputted, k ∈ o') ∧
          (∀ p ∈ iter, p.1 ∈ o'))
    ∧ (∀ c, eventsOuter entries iter queued outputted result = .error (.AuthEventCycle c) →
        Relation.TransGen (depID entries) c c)
    ∧ (∀ a b, eventsOuter entries iter queued outputted result = .error (.MissingAuthEvent a b) →
        lookupEvent entries a = none ∧
          ∃ k e, lookupEvent entries k = some e ∧ e.eventID = b ∧ a ∈ e.authEventIDs)
    ∧ (∀ err, eventsOuter entries iter queued outputted result = .error err →
        (∃ c, err = .AuthEventCycle c) ∨ (∃ a b, err = .MissingAuthEvent a b))) := by
  intro iter
  induction iter with
  | nil =>
    intro queued outputted result _ inv
    refine ⟨?_, ?_, ?_, ?_⟩ <;> intro a
    · intro h'
      simp only [eventsOuter, Except.ok.injEq] at h'
      subst h'
      exact ⟨queued, outputted, inv, fun k hk => hk, by simp⟩
    all_goals
      intros
      simp [eventsOuter] at *
  | cons p rest ih =>
    obtain ⟨k, v⟩ := p
    intro queued outputted result hsub inv
    by_cases hk : k ∈ outputted
    · have hrw : eventsOuter entries ((k, v) :: rest) queued outputted result =
          eventsOuter entries rest queued outputted result := by
        rw [eventsOuter, if_pos hk]
      obtain ⟨okC, cycC, misC, clsC⟩ :=
        ih queued outputted result (fun p hp => hsub p (List.mem_cons_of_mem _ hp)) inv
      refine ⟨?_, ?_, ?_, ?_⟩
      · intro res' h'
        rw [hrw] at h'
        obtain ⟨q', o', inv', mono', cover'⟩ := okC res' h'
        refine ⟨q', o', inv', mono', ?_⟩
        intro p hp
        rcases List.mem_cons.mp hp with rfl | hp'
        · exact mono' k hk
        · exact cover' p hp'
      · intro c h'
        rw [hrw] at h'
        exact cycC c h'
      · intro a b h'
        rw [hrw] at h'
        exact misC a b h'
      · intro err h'
        rw [hrw] at h'
        exact clsC err h'
    · have inv₁ : LoopInv entries [(k, v)] queued outputted result := by
        refine ⟨?_, inv.resultLookup, inv.outEq, inv.resultNodup, ?_, ?_, ?_, inv.topo⟩
        · intro p hp
          simp only [List.mem_singleton] at hp
          subst hp
          exact mem_lookupEvent hnd (hsub (k, v) (List.mem_cons_self _ _))
        · intro p hp
          simp only [List.mem_singleton] at hp
          subst hp
          exact hk
        · exact List.chain'_singleton _
        · intro κ hκ hκo
          exact absurd (inv.queuedCover κ hκ hκo) (by simp)
      obtain ⟨lokC, lcycC, lmisC, lclsC⟩ :=
        eventsLoop_spec entries [(k, v)] queued outputted result inv₁
      rcases hloop : eventsLoop entries [(k, v)] queued outputted result with err | trip
      · have hrw : eventsOuter entries ((k, v) :: rest) queued outputted result =
            .error err := by
          rw [eventsOuter, if_neg hk, hloop]
        refine ⟨?_, ?_, ?_, ?_⟩
        · intro res' h'
          rw [hrw] at h'
          simp at h'
        · intro c h'
          rw [hrw] at h'
          simp only [Except.error.injEq] at h'
          exact lcycC c (by rw [hloop, h'])
        · intro a b h'
          rw [hrw] at h'
          simp only [Except.error.injEq] at h'
          exact lmisC a b (by rw [hloop, h'])
        · intro err' h'
          rw [hrw] at h'
          simp only [Except.error.injEq] at h'
          exact h' ▸ lclsC err hloop
      · obtain ⟨res₀, q₀, o₀⟩ := trip
        have hrw : eventsOuter entries ((k, v) :: rest) queued outputted result =
            eventsOuter entries rest q₀ o₀ res₀ := by
          rw [eventsOuter, if_neg hk, hloop]
        obtain ⟨inv₀, mono₀, hstk₀⟩ := lokC res₀ q₀ o₀ hloop
        obtain ⟨okC, cycC, misC, clsC⟩ :=
          ih q₀ o₀ res₀ (fun p hp => hsub p (List.mem_cons_of_mem _ hp)) inv₀
        refine ⟨?_, ?_, ?_, ?_⟩
        · intro res' h'
          rw [hrw] at h'
          obtain ⟨q', o', inv', mono', cover'⟩ := okC res' h'
          refine ⟨q', o', inv', fun κ hκ => mono' κ (mono₀ κ hκ), ?_⟩
          intro p hp
          rcases List.mem_cons.mp hp with rfl | hp'
          · exact mono' k (hstk₀ (k, v) (List.mem_cons_self _ _))
          · exact cover' p hp'
        · intro c h'
          rw [hrw] at h'
          exact cycC c h'
        · intro a b h'
          rw [hrw] at h'
          exact misC a b h'
        · intro err h'
          rw [hrw] at h'
          exact clsC err h'

theorem mem_insertEntry {m : List (String × Event)} {k : String} {v : Event}
    {p : String × Event} (h : p ∈ insertEntry m k v) : p ∈ m ∨ p = (k, v) := by
  induction m with
  | nil =>
    simp only [insertEntry, List.mem_singleton] at h
    exact Or.inr h
  | cons q rest ih =>
    obtain ⟨k', v'⟩ := q
    rw [insertEntry] at h
    by_cases hkk : k' = k
    · simp only [hkk, if_true] at h
      rcases List.mem_cons.mp h with rfl | hm
      · exact Or.inr rfl
      · exact Or.inl (List.mem_cons_of_mem _ hm)
    · simp only [hkk, if_false] at h
      rcases List.mem_cons.mp h with rfl | hm
      · exact Or.inl (List.mem_cons_self _ _)
      · rcases ih hm with h' | h'
        exacts [Or.inl (List.mem_cons_of_mem _ h'), Or.inr h']

theorem keys_insertEntry_mem {m : List (String × Event)} {k : String} {v : Event}
    {x : String} :
    x ∈ (insertEntry m k v).map Prod.fst ↔ x ∈ m.map Prod.fst ∨ x = k := by
  induction m with
  | nil => simp [insertEntry]
  | cons q rest ih =>
    obtain ⟨k', v'⟩ := q
    rw [insertEntry]
    by_cases hkk : k' = k
    · subst hkk
      simp only [if_true]
      simp only [List.map_cons, List.mem_cons]
      tauto
    · simp only [hkk, if_false, List.map_cons, List.mem_cons, ih]
      tauto

theorem keys_insertEntry_nodup {m : List (String × Event)} {k : String} {v : Event}
    (h : (m.map Prod.fst).Nodup) : ((insertEntry m k v).map Prod.fst).Nodup := by
  induction m with
  | nil => simp [insertEntry]
  | cons q rest ih =>
    obtain ⟨k', v'⟩ := q
    simp only [List.map_cons, List.nodup_cons] at h
    rw [insertEntry]
    by_cases hkk : k' = k
    · simp only [hkk, if_true, List.map_cons, List.nodup_cons]
      exact ⟨hkk ▸ h.1, h.2⟩
    · simp only [hkk, if_false, List.map_cons, List.nodup_cons]
      refine ⟨?_, ih h.2⟩
      intro hc
      rcases keys_insertEntry_mem.mp hc with h' | h'
      exacts [h.1 h', hkk h']

theorem foldl_insert_mem_keys (es : List Event) :
    ∀ (m : List (String × Event)) (x : String),
      x ∈ ((es.foldl (fun m e => insertEntry m e.eventID e) m).map Prod.fst) ↔
        x ∈ m.map Prod.fst ∨ x ∈ es.map Event.eventID := by
  induction es with
  | nil => simp
  | cons e rest ih =>
    intro m x
    simp only [List.foldl_cons, ih, keys_insertEntry_mem, List.map_cons, List.mem_cons]
    tauto

theorem foldl_insert_nodup (es : List Event) :
    ∀ (m : List (String × Event)), (m.map Prod.fst).Nodup →
      ((es.foldl (fun m e => insertEntry m e.eventID e) m).map Prod.fst).Nodup := by
  induction es with
  | nil => exact fun m h => h
  | cons e rest ih =>
    intro m h
    exact ih _ (keys_insertEntry_nodup h)

theorem foldl_insert_wf (es : List Event) :
    ∀ (m : List (String × Event)), (∀ p ∈ m, p.2.eventID = p.1) →
      ∀ p ∈ es.foldl (fun m e => insertEntry m e.eventID e) m, p.2.eventID = p.1 := by
  induction es with
  | nil => exact fun m h => h
  | cons e rest ih =>
    intro m h
    refine ih _ ?_
    intro p hp
    rcases mem_insertEntry hp with h' | h'
    · exact h p h'
    · rw [h']

theorem buildIndex_nodup (r : RespState) : ((buildIndex r).map Prod.fst).Nodup :=
  foldl_insert_nodup _ [] (by simp)

theorem buildIndex_wf (r : RespState) : ∀ p ∈ buildIndex r, p.2.eventID = p.1 :=
  foldl_insert_wf _ [] (by simp)

theorem buildIndex_mem_keys (r : RespState) (x : String) :
    x ∈ (buildIndex r).map Prod.fst ↔
      x ∈ (r.StateEvents ++ r.AuthEvents).map Event.eventID := by
  rw [buildIndex, foldl_insert_mem_keys]
  simp

/-- Step 1 of `RespState.Check`: every auth-chain event must carry a state
key (the Go loop returns on the first event whose `StateKey()` is nil). -/
def checkAuthEventsHaveKeys : List Event → Option FedError
  | [] => none
  | e :: rest =>
    match e.stateKey with
    | none => some (.NotStateEvent e.eventID)
    | some _ => checkAuthEventsHaveKeys rest

/-- Steps 2–3 of `RespState.Check`, exactly as the Go loop interleaves
them: for each state event in order, first the state-key presence check,
then the duplicate `StateKeyTuple` check against the tuples seen so far. -/
def checkStateEvents : List StateKeyTuple → List Event → Option FedError
  | _, [] => none
  | seen, e :: rest =>
    match e.stateKey with
    | none => some (.NotStateEvent e.eventID)
    | some sk =>
      if (⟨e.type, sk⟩ : StateKeyTuple) ∈ seen then some (.DuplicateStateKey e.type sk)
      else checkStateEvents (⟨e.type, sk⟩ :: seen) rest

/-- The reference-resolution loop of `checkAllowedByAuthEvents`: look up
each declared auth-event reference in order, feeding each found event into
the authorization-set builder (`AddEvent`, modelled by the abstract
`addEvent` collaborator); fail on the first missing reference or builder
rejection.  The accumulator is the list of events added so far. -/
def collectAuthSet (eventsByID : List (String × Event)) (addEvent : Event → Option String)
    (dependent : String) : List String → List Event → Except FedError (List Event)
  | [], acc => .ok acc
  | ref :: rest, acc =>
    match lookupEvent eventsByID ref with
    | none => .error (.MissingAuthEvent ref dependent)
    | some authEvent =>
      match addEvent authEvent with
      | some msg => .error (.AuthEventsAddFailure msg)
      | none => collectAuthSet eventsByID addEvent dependent rest (acc ++ [authEvent])

/-- `checkAllowedByAuthEvents`: build the minimal authorization set from
the event's own declared dependencies and ask the authorization evaluator
(`Allowed`, modelled by the abstract `allowed` collaborator; `none` means
permitted, `some reason` means rejected). -/
def checkAllowedByAuthEvents (event : Event) (eventsByID : List (String × Event))
    (addEvent : Event → Option String) (allowed : Event → List Event → Option String) :
    Except FedError Unit :=
  match collectAuthSet eventsByID addEvent event.eventID event.authEventIDs [] with
  | .error e => .error e
  | .ok authSet =>
    match allowed event authSet with
    | some reason => .error (.NotAuthorized event.eventID reason)
    | none => .ok ()

/-- Step 6 of `RespState.Check`: run `checkAllowedByAuthEvents` for every
event of the combined list, stopping at the first failure. -/
def checkEventsAllowed (eventsByID : List (String × Event))
    (addEvent : Event → Option String) (allowed : Event → List Event → Option String) :
    List Event → Except FedError Unit
  | [] => .ok ()
  | e :: rest =>
    match checkAllowedByAuthEvents e eventsByID addEvent allowed with
    | .error err => .error err
    | .ok _ => checkEventsAllowed eventsByID addEvent allowed rest

/-- `RespState.Check`: validate a `/state` response.  `verify` is the
abstract signature verifier (`VerifyAllEventSignatures`); its error is
propagated unchanged.  `allEvents` is accumulated exactly as in the source:
auth-chain events first, then state events, duplicates retained. -/
def RespState.Check (r : RespState) (verify : List Event → Except FedError Unit)
    (addEvent : Event → Option String) (allowed : Event → List Event → Option String) :
    Except FedError Unit :=
  match checkAuthEventsHaveKeys r.AuthEvents with
  | some err => .error err
  | none =>
    match checkStateEvents [] r.StateEvents with
    | some err => .error err
    | none =>
      let allEvents := r.AuthEvents ++ r.StateEvents
      match verify allEvents with
      | .error err => .error err
      | .ok _ =>
        let eventsByID := allEvents.foldl (fun m e => insertEntry m e.eventID e) []
        checkEventsAllowed eventsByID addEvent allowed allEvents

/-- `RespSendJoin`: a `/send_join` response is a `RespState` plus the
origin server name. -/
structure RespSendJoin where
  respState : RespState
  Origin : String
deriving DecidableEq

/-- `RespSendJoin.ToRespState`. -/
def RespSendJoin.ToRespState (r : RespSendJoin) : RespState := r.respState

/-- The loop of `RespSendJoin.Check` over the state events: build the
state-events-only index while feeding every state event into the
authorization-set builder, stopping at the first builder rejection. -/
def buildJoinContext (addEvent : Event → Option String) :
    List Event → List (String × Event) → List Event →
    Except FedError (List (String × Event) × List Event)
  | [], idx, acc => .ok (idx, acc)
  | e :: rest, idx, acc =>
    let idx' := insertEntry idx e.eventID e
    match addEvent e with
    | some msg => .error (.AuthEventsAddFailure msg)
    | none => buildJoinContext addEvent rest idx' (acc ++ [e])

/-- `RespSendJoin.Check`: validate the response as a `/state` response,
then check the join event against its own auth events (looked up in the
state events only), then check the join event against the authorization
set accumulated from the full supplied state. -/
def RespSendJoin.Check (r : RespSendJoin) (verify : List Event → Except FedError Unit)
    (addEvent : Event → Option String) (allowed : Event → List Event → Option String)
    (joinEvent : Event) : Except FedError Unit :=
  match r.ToRespState.Check verify addEvent allowed with
  | .error e => .error e
  | .ok _ =>
    match buildJoinContext addEvent r.respState.StateEvents [] [] with
    | .error e => .error e
    | .ok (stateEventsByID, authSet) =>
      match checkAllowedByAuthEvents joinEvent stateEventsByID addEvent allowed with
      | .error e => .error e
      | .ok _ =>
        match allowed joinEvent authSet with
        | some reason => .error (.NotAuthorizedBySuppliedState joinEvent.eventID reason)
        | none => .ok ()

/-- The state-events-only index that `RespSendJoin.Check` passes to
`checkAllowedByAuthEvents` for the join event. -/
def stateIndexOf (events : List Event) : List (String × Event) :=
  events.foldl (fun m e => insertEntry m e.eventID e) []

/-- A JSON value, for the wire format of `RespInvite`. -/
inductive JValue where
  | null
  | bool (b : Bool)
  | num (n : Int)
  | str (s : String)
  | arr (elems : List JValue)
  | obj (fields : List (String × JValue))

/-- The distinguishable failures of `RespInvite.UnmarshalJSON`. -/
inductive InviteError where
  /-- the payload is not a JSON array (and not null) -/
  | notArray
  /-- "invalid invite response, invalid length: %d != 2" -/
  | invalidLength (n : Nat)
  /-- the second array element is not a JSON object (and not null) -/
  | secondNotObject
  /-- an error propagated from decoding the inner event -/
  | eventDecode (msg : String)
deriving DecidableEq

/-- `RespInvite`: the invite event signed by the recipient server (the
field is named `Event` in the Go source). -/
structure RespInvite where
  event : Event
deriving DecidableEq

/-- JSON object field lookup. -/
def lookupJ : List (String × JValue) → String → Option JValue
  | [], _ => none
  | (k, v) :: rest, key => if k = key then some v else lookupJ rest key

/-- The zero value a Go `respInviteFields` struct starts from. -/
def zeroEvent : Event := ⟨"", "", none, []⟩

/-- `RespInvite.MarshalJSON`: the response is encoded as the two-element
array `[200, {"event": <event>}]` where `200` is a fixed legacy literal.
`enc` is the (external) encoder for the inner event. -/
def RespInvite.marshal (enc : Event → JValue) (r : RespInvite) : JValue :=
  .arr [.num 200, .obj [("event", enc r.event)]]

/-- Decoding of `respInviteFields` from the second tuple element, as Go's
`json.Unmarshal` into the struct behaves: a null leaves the zero value, a
missing `"event"` key leaves the zero event, otherwise the inner event is
decoded by the external decoder `dec`. -/
def decodeInviteFields (dec : JValue → Except String Event) :
    JValue → Except InviteError RespInvite
  | .obj kvs =>
    match lookupJ kvs "event" with
    | none => .ok ⟨zeroEvent⟩
    | some j =>
      match dec j with
      | .error m => .error (.eventDecode m)
      | .ok e => .ok ⟨e⟩
  | .null => .ok ⟨zeroEvent⟩
  | _ => .error .secondNotObject

/-- `RespInvite.UnmarshalJSON`: decode into a list of raw elements (null
decodes to the empty list), fail unless the list has exactly two elements,
then decode the second element; the first element is never inspected. -/
def RespInvite.unmarshal (dec : JValue → Except String Event) :
    JValue → Except InviteError RespInvite
  | .arr [_, second] => decodeInviteFields dec second
  | .arr tuple => .error (.invalidLength tuple.length)
  | .null => .error (.invalidLength 0)
  | _ => .error .notArray

theorem loopInv_init (entries : List (String × Event)) : LoopInv entries [] [] [] [] := by
  refine ⟨by simp, by simp, by simp, by simp, by simp, List.chain'_nil, by simp, ?_⟩
  intro l₁ p l₂ h
  exact absurd h (by simp)

/-- On a successful run, every key of the event index is emitted and the
final state satisfies the loop invariant. -/
theorem eventsOuter_run_ok {r : RespState} {res' : List (String × Event)}
    (hok : eventsOuter (buildIndex r) (buildIndex r) [] [] [] = .ok res') :
    ∃ q' o', LoopInv (buildIndex r) [] q' o' res' ∧ ∀ p ∈ buildIndex r, p.1 ∈ o' := by
  obtain ⟨okC, _, _, _⟩ := eventsOuter_spec (buildIndex r) (buildIndex_nodup r)
      (buildIndex r) [] [] [] (fun p hp => hp) (loopInv_init _)
  obtain ⟨q', o', inv', _, cover'⟩ := okC res' hok
  exact ⟨q', o', inv', cover'⟩

/-- On a successful run, emission position is a rank function for the
auth-dependency relation: dependencies come strictly earlier. -/
theorem depID_rank_of_run_ok {r : RespState} {res' : List (String × Event)}
    {q' o' : List String} (inv : LoopInv (buildIndex r) [] q' o' res')
    (hcomp : ∀ p ∈ buildIndex r, p.1 ∈ o') :
    ∀ x y, depID (buildIndex r) x y →
      firstIdx (res'.map Prod.fst) y < firstIdx (res'.map Prod.fst) x := by
  rintro x y ⟨e, hx, hy⟩
  have hxo : x ∈ o' := hcomp (x, e) (lookupEvent_mem hx)
  have hxr : x ∈ res'.map Prod.fst := (inv.outEq x).mp hxo
  obtain ⟨l₁, l₂, hL, hidx, _⟩ := firstIdx_split hxr
  obtain ⟨A, B, C, hres, hA, hB, hC⟩ := map_split hL
  have hBlk := inv.resultLookup B
    (by rw [hres]; exact List.mem_append_right _ (List.mem_cons_self _ _))
  rw [hB] at hBlk
  have hBe : B.2 = e := Option.some.inj (hBlk.symm.trans hx)
  have hyA : y ∈ A.map Prod.fst := inv.topo A B C hres y (by rw [hBe]; exact hy)
  have hlt : firstIdx (l₁ ++ x :: l₂) y < l₁.length := firstIdx_lt_of_mem_prefix (hA ▸ hyA)
  rw [← hL] at hlt
  rw [hidx]
  exact hlt

/-- On a successful run, every auth-event reference of every indexed event
resolves within the index. -/
theorem run_ok_resolvable {r : RespState} {res' : List (String × Event)}
    {q' o' : List String} (inv : LoopInv (buildIndex r) [] q' o' res')
    (hcomp : ∀ p ∈ buildIndex r, p.1 ∈ o') :
    ∀ p ∈ buildIndex r, ∀ ref ∈ p.2.authEventIDs,
      (lookupEvent (buildIndex r) ref).isSome := by
  intro p hp ref href
  have hlk : lookupEvent (buildIndex r) p.1 = some p.2 :=
    mem_lookupEvent (buildIndex_nodup r) hp
  have hpo : p.1 ∈ o' := hcomp p hp
  have hpr : p.1 ∈ res'.map Prod.fst := (inv.outEq p.1).mp hpo
  obtain ⟨l₁, l₂, hL, _, _⟩ := firstIdx_split hpr
  obtain ⟨A, B, C, hres, hA, hB, hC⟩ := map_split hL
  have hBlk := inv.resultLookup B
    (by rw [hres]; exact List.mem_append_right _ (List.mem_cons_self _ _))
  rw [hB] at hBlk
  have hBe : B.2 = p.2 := Option.some.inj (hBlk.symm.trans hlk)
  have hyA : ref ∈ A.map Prod.fst := inv.topo A B C hres ref (by rw [hBe]; exact href)
  obtain ⟨pq, hpq, hpqe⟩ := List.mem_map.mp hyA
  have hpqr : pq ∈ res' := by
    rw [hres]
    exact List.mem_append_left _ hpq
  rw [← hpqe]
  rw [inv.resultLookup pq hpqr]
  rfl

/-- **C1**: for every `RespState` whose combined state and auth-chain
events have acyclic auth-event references (witnessed by a rank function)
all resolvable within the combined set, `Events` succeeds, its output
contains each distinct input event identifier exactly once (events present
in both lists are de-duplicated), every event comes strictly after all
events its `AuthEvents` reference, and empty input yields empty output. -/
theorem events_acyclic_resolvable_ok (r : RespState) (rank : String → Nat)
    (hres : ∀ p ∈ buildIndex r, ∀ ref ∈ p.2.authEventIDs,
      (lookupEvent (buildIndex r) ref).isSome)
    (hrank : ∀ p ∈ buildIndex r, ∀ ref ∈ p.2.authEventIDs, rank ref < rank p.1) :
    ∃ out, r.Events = .ok out ∧
      (out.map Event.eventID).Nodup ∧
      (∀ i, i ∈ out.map Event.eventID ↔
        i ∈ (r.StateEvents ++ r.AuthEvents).map Event.eventID) ∧
      (∀ l₁ E l₂, out = l₁ ++ E :: l₂ →
        ∀ ref ∈ E.authEventIDs, ref ∈ l₁.map Event.eventID) ∧
      ((r.StateEvents = [] ∧ r.AuthEvents = []) → out = []) := by
  have hrankdep : ∀ x y, depID (buildIndex r) x y → rank y < rank x := by
    rintro x y ⟨e, hx, hy⟩
    exact hrank (x, e) (lookupEvent_mem hx) y hy
  obtain ⟨okC, cycC, misC, clsC⟩ := eventsOuter_spec (buildIndex r) (buildIndex_nodup r)
      (buildIndex r) [] [] [] (fun p hp => hp) (loopInv_init _)
  rcases hrun : eventsOuter (buildIndex r) (buildIndex r) [] [] [] with err | res'
  · rcases clsC err hrun with ⟨c, rfl⟩ | ⟨a, b, rfl⟩
    · exact absurd (transGen_rank hrankdep (cycC c hrun)) (lt_irrefl _)
    · obtain ⟨hnone, k, e, hk, _, ha⟩ := misC a b hrun
      have := hres (k, e) (lookupEvent_mem hk) a ha
      rw [hnone] at this
      simp at this
  · obtain ⟨q', o', inv, _, hcomp⟩ := okC res' hrun
    have hwf : ∀ p ∈ res', p.2.eventID = p.1 := fun p hp =>
      buildIndex_wf r p (lookupEvent_mem (inv.resultLookup p hp))
    have hout : (res'.map Prod.snd).map Event.eventID = res'.map Prod.fst := by
      rw [List.map_map]
      exact List.map_congr_left hwf
    refine ⟨res'.map Prod.snd, ?_, ?_, ?_, ?_, ?_⟩
    · rw [RespState.Events]
      simp only [hrun]
      rfl
    · rw [hout]
      exact inv.resultNodup
    · intro i
      rw [hout, ← buildIndex_mem_keys]
      constructor
      · intro hi
        obtain ⟨p, hp, hpe⟩ := List.mem_map.mp hi
        rw [← hpe]
        exact lookupEvent_isSome_mem_keys (by rw [inv.resultLookup p hp]; rfl)
      · intro hi
        obtain ⟨p, hp, hpe⟩ := List.mem_map.mp hi
        rw [← hpe]
        exact (inv.outEq p.1).mp (hcomp p hp)
    · intro l₁ E l₂ hsplit ref href
      obtain ⟨A, B, C, hres2, hA, hB, hC⟩ := map_split hsplit
      have hrefA : ref ∈ A.map Prod.fst :=
        inv.topo A B C hres2 ref (by rw [hB]; exact href)
      have hAwf : ∀ p ∈ A, p.2.eventID = p.1 := fun p hp =>
        hwf p (by rw [hres2]; exact List.mem_append_left _ hp)
      have hAkeys : A.map Prod.fst = l₁.map Event.eventID := by
        rw [← hA, List.map_map]
        exact (List.map_congr_left hAwf).symm
      rw [← hAkeys]
      exact hrefA
    · rintro ⟨h1, h2⟩
      have hempty : buildIndex r = [] := by
        rw [buildIndex, h1, h2]
        rfl
      cases res' with
      | nil => rfl
      | cons p t =>
        have := inv.resultLookup p (List.mem_cons_self _ _)
        rw [hempty] at this
        simp [lookupEvent] at this

/-- **C2 (amended)**: whenever the index contains a dependency cycle and
all auth-event references resolve within it, `Events` fails with an
`AuthEventCycle` error naming an identifier lying on a dependency cycle,
and no event list is returned. -/
theorem events_cycle_error (r : RespState) (c₀ : String)
    (hres : ∀ p ∈ buildIndex r, ∀ ref ∈ p.2.authEventIDs,
      (lookupEvent (buildIndex r) ref).isSome)
    (hcyc : Relation.TransGen (depID (buildIndex r)) c₀ c₀) :
    ∃ c, r.Events = .error (.AuthEventCycle c) ∧
      Relation.TransGen (depID (buildIndex r)) c c := by
  obtain ⟨okC, cycC, misC, clsC⟩ := eventsOuter_spec (buildIndex r) (buildIndex_nodup r)
      (buildIndex r) [] [] [] (fun p hp => hp) (loopInv_init _)
  rcases hrun : eventsOuter (buildIndex r) (buildIndex r) [] [] [] with err | res'
  · rcases clsC err hrun with ⟨c, rfl⟩ | ⟨a, b, rfl⟩
    · refine ⟨c, ?_, cycC c hrun⟩
      rw [RespState.Events]
      simp only [hrun]
      rfl
    · obtain ⟨hnone, k, e, hk, _, ha⟩ := misC a b hrun
      have := hres (k, e) (lookupEvent_mem hk) a ha
      rw [hnone] at this
      simp at this
  · obtain ⟨q', o', inv, _, hcomp⟩ := okC res' hrun
    have := transGen_rank (fun x y => depID_rank_of_run_ok inv hcomp x y) hcyc
    exact absurd this (lt_irrefl _)

theorem collectAuthSet_missing {idx : List (String × Event)} {addEvent : Event → Option String}
    {dependent d : String} {post : List String} :
    ∀ (pre : List String) (acc : List Event),
    (∀ p ∈ pre, ∃ e, lookupEvent idx p = some e ∧ addEvent e = none) →
    lookupEvent idx d = none →
    collectAuthSet idx addEvent dependent (pre ++ d :: post) acc =
      .error (.MissingAuthEvent d dependent) := by
  intro pre
  induction pre with
  | nil =>
    intro acc _ hnone
    rw [List.nil_append, collectAuthSet, hnone]
  | cons p rest ih =>
    intro acc hpre hnone
    obtain ⟨e, hlk, hadd⟩ := hpre p (List.mem_cons_self _ _)
    rw [List.cons_append, collectAuthSet, hlk]
    simp only [hadd]
    exact ih _ (fun q hq => hpre q (List.mem_cons_of_mem _ hq)) hnone

/-- **C3 (amended)**: an unresolvable auth-event reference is detected.
For `Events`, when the references are acyclic (rank function) and some
indexed event declares a reference absent from the index, the call fails
with `MissingAuthEvent` naming an absent reference together with the
identifier of an indexed event that declares it.  For
`checkAllowedByAuthEvents`, when every reference before the first absent
one resolves and is accepted by the builder, the call fails with
`MissingAuthEvent` naming that reference and the dependent event. -/
theorem missing_auth_event_detection :
    (∀ (r : RespState) (rank : String → Nat),
      (∀ p ∈ buildIndex r, ∀ ref ∈ p.2.authEventIDs, rank ref < rank p.1) →
      (∃ p ∈ buildIndex r, ∃ ref ∈ p.2.authEventIDs,
        lookupEvent (buildIndex r) ref = none) →
      ∃ a b e, r.Events = .error (.MissingAuthEvent a b) ∧
        lookupEvent (buildIndex r) a = none ∧
        lookupEvent (buildIndex r) b = some e ∧ a ∈ e.authEventIDs)
    ∧ (∀ (event : Event) (idx : List (String × Event)) (addEvent : Event → Option String)
        (allowed : Event → List Event → Option String) (pre : List String) (d : String)
        (post : List String),
        event.authEventIDs = pre ++ d :: post →
        (∀ p ∈ pre, ∃ e, lookupEvent idx p = some e ∧ addEvent e = none) →
        lookupEvent idx d = none →
        checkAllowedByAuthEvents event idx addEvent allowed =
          .error (.MissingAuthEvent d event.eventID)) := by
  constructor
  · intro r rank hrank hgap
    have hrankdep : ∀ x y, depID (buildIndex r) x y → rank y < rank x := by
      rintro x y ⟨e, hx, hy⟩
      exact hrank (x, e) (lookupEvent_mem hx) y hy
    obtain ⟨okC, cycC, misC, clsC⟩ := eventsOuter_spec (buildIndex r) (buildIndex_nodup r)
        (buildIndex r) [] [] [] (fun p hp => hp) (loopInv_init _)
    rcases hrun : eventsOuter (buildIndex r) (buildIndex r) [] [] [] with err | res'
    · rcases clsC err hrun with ⟨c, rfl⟩ | ⟨a, b, rfl⟩
      · exact absurd (transGen_rank hrankdep (cycC c hrun)) (lt_irrefl _)
      · obtain ⟨hnone, k, e, hk, hke, ha⟩ := misC a b hrun
        refine ⟨a, b, e, ?_, hnone, ?_, ha⟩
        · rw [RespState.Events]
          simp only [hrun]
          rfl
        · have hw : e.eventID = k := buildIndex_wf r (k, e) (lookupEvent_mem hk)
          have hkb : k = b := hw.symm.trans hke
          rw [← hkb]
          exact hk
    · obtain ⟨q', o', inv, _, hcomp⟩ := okC res' hrun
      obtain ⟨p, hp, ref, href, hnone⟩ := hgap
      have := run_ok_resolvable inv hcomp p hp ref href
      rw [hnone] at this
      simp at this
  · intro event idx addEvent allowed pre d post hids hpre hnone
    rw [checkAllowedByAuthEvents, hids, collectAuthSet_missing pre [] hpre hnone]

def evCreate : Event := ⟨"c", "m.room.create", some "", []⟩

def evJoin : Event := ⟨"j", "m.room.member", some "u", ["c"]⟩

def rW1 : RespState := ⟨[evCreate, evJoin], [evCreate]⟩

def rankW1 : String → Nat := fun s => if s = "c" then 0 else 1

theorem events_acyclic_resolvable_ok_witness :
    ∃ out, rW1.Events = .ok out ∧
      (out.map Event.eventID).Nodup ∧
      (∀ i, i ∈ out.map Event.eventID ↔
        i ∈ (rW1.StateEvents ++ rW1.AuthEvents).map Event.eventID) ∧
      (∀ l₁ E l₂, out = l₁ ++ E :: l₂ →
        ∀ ref ∈ E.authEventIDs, ref ∈ l₁.map Event.eventID) ∧
      ((rW1.StateEvents = [] ∧ rW1.AuthEvents = []) → out = []) :=
  events_acyclic_resolvable_ok rW1 rankW1 (by decide) (by decide)

def evX : Event := ⟨"x", "m.room.member", some "ux", ["y"]⟩

def evY : Event := ⟨"y", "m.room.member", some "uy", ["x"]⟩

def rW2 : RespState := ⟨[evX, evY], []⟩

theorem events_cycle_error_witness :
    ∃ c, rW2.Events = .error (.AuthEventCycle c) ∧
      Relation.TransGen (depID (buildIndex rW2)) c c :=
  events_cycle_error rW2 "x" (by decide)
    (Relation.TransGen.head
      (show depID (buildIndex rW2) "x" "y" from ⟨evX, by decide, by decide⟩)
      (Relation.TransGen.single
        (show depID (buildIndex rW2) "y" "x" from ⟨evY, by decide, by decide⟩)))

def evGapA : Event := ⟨"a", "m.room.member", some "ua", ["gone"]⟩

def evSelfB : Event := ⟨"b", "m.room.member", some "ub", ["b"]⟩

def rX2 : RespState := ⟨[evGapA, evSelfB], []⟩

theorem events_cycle_error_counterexample :
    Relation.TransGen (depID (buildIndex rX2)) "b" "b" ∧
    rX2.Events = .error (.MissingAuthEvent "gone" "a") := by
  constructor
  · exact Relation.TransGen.single ⟨evSelfB, by decide, by decide⟩
  · simp [RespState.Events, rX2, evGapA, evSelfB, buildIndex, insertEntry,
      eventsOuter, eventsLoop, scanRefs, lookupEvent, Except.map]

def evSelfA : Event := ⟨"a", "m.room.member", some "ua", ["a"]⟩

def evGapB : Event := ⟨"b", "m.room.member", some "ub", ["gone"]⟩

def rX3 : RespState := ⟨[evSelfA, evGapB], []⟩

theorem missing_auth_event_detection_counterexample :
    (∃ p ∈ buildIndex rX3, ∃ ref ∈ p.2.authEventIDs,
      lookupEvent (buildIndex rX3) ref = none) ∧
    rX3.Events = .error (.AuthEventCycle "a") := by
  constructor
  · decide
  · simp [RespState.Events, rX3, evSelfA, evGapB, buildIndex, insertEntry,
      eventsOuter, eventsLoop, scanRefs, lookupEvent, Except.map]

def rW3 : RespState := ⟨[evGapA], []⟩

def rankW3 : String → Nat := fun s => if s = "a" then 1 else 0

def evJW : Event := ⟨"jw", "m.room.member", some "u", ["missing1"]⟩

def addNone : Event → Option String := fun _ => none

def allowAll : Event → List Event → Option String := fun _ _ => none

theorem missing_auth_event_detection_witness :
    (∃ a b e, rW3.Events = .error (.MissingAuthEvent a b) ∧
      lookupEvent (buildIndex rW3) a = none ∧
      lookupEvent (buildIndex rW3) b = some e ∧ a ∈ e.authEventIDs) ∧
    checkAllowedByAuthEvents evJW [] addNone allowAll =
      .error (.MissingAuthEvent "missing1" evJW.eventID) :=
  ⟨missing_auth_event_detection.1 rW3 rankW3 (by decide) (by decide),
   missing_auth_event_detection.2 evJW [] addNone allowAll [] "missing1" []
     (by decide) (fun p hp => absurd hp (List.not_mem_nil p)) (by decide)⟩

/-- The `StateKeyTuple` computed from an event carrying a state key. -/
def tupleOf (e : Event) : Option StateKeyTuple :=
  e.stateKey.map (fun sk => ⟨e.type, sk⟩)

theorem checkAuthEventsHaveKeys_none {es : List Event}
    (h : ∀ e ∈ es, e.stateKey.isSome) : checkAuthEventsHaveKeys es = none := by
  induction es with
  | nil => rfl
  | cons e rest ih =>
    obtain ⟨sk, hsk⟩ := Option.isSome_iff_exists.mp (h e (List.mem_cons_self _ _))
    rw [checkAuthEventsHaveKeys, hsk]
    exact ih (fun x hx => h x (List.mem_cons_of_mem _ hx))

/-- When all state keys are present and some tuple is duplicated (or was
already seen), the interleaved state-event check reports a duplicate. -/
theorem checkStateEvents_dup :
    ∀ (es : List Event) (seen : List StateKeyTuple),
    (∀ e ∈ es, e.stateKey.isSome) →
    (∃ t ∈ es.filterMap tupleOf, 2 ≤ (es.filterMap tupleOf).count t ∨ t ∈ seen) →
    ∃ t : StateKeyTuple,
      checkStateEvents seen es = some (.DuplicateStateKey t.eventType t.stateKey) ∧
      (2 ≤ (es.filterMap tupleOf).count t ∨
        (t ∈ seen ∧ t ∈ es.filterMap tupleOf)) := by
  intro es
  induction es with
  | nil =>
    intro seen _ h
    simp at h
  | cons e rest ih =>
    intro seen hkeys hdup
    obtain ⟨sk, hsk⟩ := Option.isSome_iff_exists.mp (hkeys e (List.mem_cons_self _ _))
    have hfm : (e :: rest).filterMap tupleOf =
        (⟨e.type, sk⟩ : StateKeyTuple) :: rest.filterMap tupleOf := by
      rw [List.filterMap_cons]
      simp [tupleOf, hsk]
    rw [checkStateEvents]
    simp only [hsk]
    by_cases hmem : (⟨e.type, sk⟩ : StateKeyTuple) ∈ seen
    · rw [if_pos hmem]
      refine ⟨⟨e.type, sk⟩, rfl, Or.inr ⟨hmem, ?_⟩⟩
      rw [hfm]
      exact List.mem_cons_self _ _
    · rw [if_neg hmem]
      have hdup' : ∃ t ∈ rest.filterMap tupleOf,
          2 ≤ (rest.filterMap tupleOf).count t ∨
            t ∈ (⟨e.type, sk⟩ : StateKeyTuple) :: seen := by
        obtain ⟨t, htm, hc⟩ := hdup
        rw [hfm] at htm
        rcases List.mem_cons.mp htm with rfl | htr
        · rcases hc with hcount | hs
          · rw [hfm, List.count_cons_self] at hcount
            have h1 : 0 < (rest.filterMap tupleOf).count
                (⟨e.type, sk⟩ : StateKeyTuple) := by omega
            exact ⟨_, List.count_pos_iff.mp h1, Or.inr (List.mem_cons_self _ _)⟩
          · exact absurd hs hmem
        · refine ⟨t, htr, ?_⟩
          by_cases hte : t = (⟨e.type, sk⟩ : StateKeyTuple)
          · exact Or.inr (hte ▸ List.mem_cons_self _ _)
          · rcases hc with hcount | hs
            · rw [hfm, List.count_cons_of_ne hte] at hcount
              exact Or.inl hcount
            · exact Or.inr (List.mem_cons_of_mem _ hs)
      obtain ⟨t, hres, hc⟩ :=
        ih ((⟨e.type, sk⟩ : StateKeyTuple) :: seen)
          (fun x hx => hkeys x (List.mem_cons_of_mem _ hx)) hdup'
      refine ⟨t, hres, ?_⟩
      rcases hc with hcount | ⟨hs, hm⟩
      · left
        rw [hfm]
        exact Nat.le_trans hcount (List.count_le_count_cons _ _ _)
      · rcases List.mem_cons.mp hs with rfl | hseen
        · left
          rw [hfm, List.count_cons_self]
          have := List.one_le_count_iff.mpr hm
          omega
        · right
          refine ⟨hseen, ?_⟩
          rw [hfm]
          exact List.mem_cons_of_mem _ hm

/-- When the state events before the first one lacking a state key all
carry keys with pairwise distinct tuples not yet seen, the interleaved
check reports `NotStateEvent` for that first event. -/
theorem checkStateEvents_first_nokey :
    ∀ (pre : List Event) (seen : List StateKeyTuple) (bad : Event) (post : List Event),
    bad.stateKey = none →
    (∀ e ∈ pre, e.stateKey.isSome) →
    ((pre.filterMap tupleOf).Nodup) →
    (∀ t ∈ pre.filterMap tupleOf, t ∉ seen) →
    checkStateEvents seen (pre ++ bad :: post) = some (.NotStateEvent bad.eventID) := by
  intro pre
  induction pre with
  | nil =>
    intro seen bad post hbad _ _ _
    rw [List.nil_append, checkStateEvents]
    simp only [hbad]
  | cons e rest ih =>
    intro seen bad post hbad hkeys hnd hseen
    obtain ⟨sk, hsk⟩ := Option.isSome_iff_exists.mp (hkeys e (List.mem_cons_self _ _))
    have hfm : (e :: rest).filterMap tupleOf =
        (⟨e.type, sk⟩ : StateKeyTuple) :: rest.filterMap tupleOf := by
      rw [List.filterMap_cons]
      simp [tupleOf, hsk]
    rw [hfm] at hnd hseen
    rw [List.cons_append, checkStateEvents]
    simp only [hsk]
    rw [if_neg (hseen _ (List.mem_cons_self _ _))]
    refine ih _ bad post hbad (fun x hx => hkeys x (List.mem_cons_of_mem _ hx))
      (List.nodup_cons.mp hnd).2 ?_
    intro t ht hc
    rcases List.mem_cons.mp hc with rfl | hc'
    · exact (List.nodup_cons.mp hnd).1 ht
    · exact hseen t (List.mem_cons_of_mem _ ht) hc'

/-- **C4 (amended)**: `RespState.Check` fails with `DuplicateStateKey`
whenever two events of the state-event list share a `StateKeyTuple`
(independent of their relative order and of the verifier, builder and
evaluator), naming a tuple genuinely carried by at least two state events.
Duplicate tuples confined to the auth chain are not detected by this
check. -/
theorem check_duplicate_state_key (r : RespState)
    (verify : List Event → Except FedError Unit) (addEvent : Event → Option String)
    (allowed : Event → List Event → Option String)
    (hauth : ∀ e ∈ r.AuthEvents, e.stateKey.isSome)
    (hkeys : ∀ e ∈ r.StateEvents, e.stateKey.isSome)
    (t₀ : StateKeyTuple) (hdup : 2 ≤ (r.StateEvents.filterMap tupleOf).count t₀) :
    ∃ t : StateKeyTuple, r.Check verify addEvent allowed =
      .error (.DuplicateStateKey t.eventType t.stateKey) ∧
      2 ≤ (r.StateEvents.filterMap tupleOf).count t := by
  have hmem : t₀ ∈ r.StateEvents.filterMap tupleOf :=
    List.count_pos_iff.mp (by omega)
  obtain ⟨t, hres, hc⟩ := checkStateEvents_dup r.StateEvents [] hkeys
    ⟨t₀, hmem, Or.inl hdup⟩
  refine ⟨t, ?_, ?_⟩
  · rw [RespState.Check, checkAuthEventsHaveKeys_none hauth]
    simp only [hres]
  · rcases hc with h | ⟨h, _⟩
    · exact h
    · simp at h

def evDupA1 : Event := ⟨"d1", "m.room.member", some "alice", []⟩

def evDupA2 : Event := ⟨"d2", "m.room.member", some "alice", []⟩

def rX4 : RespState := ⟨[], [evDupA1, evDupA2]⟩

def verifyOK : List Event → Except FedError Unit := fun _ => .ok ()

theorem check_duplicate_state_key_counterexample :
    evDupA1.type = evDupA2.type ∧ evDupA1.stateKey = evDupA2.stateKey ∧
    evDupA1.eventID ≠ evDupA2.eventID ∧ evDupA1 ∈ rX4.AuthEvents ∧
    evDupA2 ∈ rX4.AuthEvents ∧
    RespState.Check rX4 verifyOK addNone allowAll = .ok () :=
  ⟨rfl, rfl, by decide, by decide, by decide, rfl⟩

def evDupS1 : Event := ⟨"s1", "m.room.member", some "alice", []⟩

def evDupS2 : Event := ⟨"s2", "m.room.member", some "alice", []⟩

def rW4 : RespState := ⟨[evDupS1, evDupS2], []⟩

theorem check_duplicate_state_key_witness :
    ∃ t : StateKeyTuple, RespState.Check rW4 verifyOK addNone allowAll =
      .error (.DuplicateStateKey t.eventType t.stateKey) ∧
      2 ≤ (rW4.StateEvents.filterMap tupleOf).count t :=
  check_duplicate_state_key rW4 verifyOK addNone allowAll (by decide) (by decide)
    ⟨"m.room.member", "alice"⟩ (by decide)

/-- **C5 (amended)**: the state-key presence check and the duplicate-tuple
check run interleaved in one pass over the state events; `NotStateEvent`
is returned for an event lacking a `StateKey` exactly when no duplicate
tuple completes among the state events preceding it (auth-chain events
having passed their own key check). -/
theorem check_not_state_event_first (r : RespState)
    (verify : List Event → Except FedError Unit) (addEvent : Event → Option String)
    (allowed : Event → List Event → Option String)
    (pre : List Event) (bad : Event) (post : List Event)
    (hsplit : r.StateEvents = pre ++ bad :: post)
    (hauth : ∀ e ∈ r.AuthEvents, e.stateKey.isSome)
    (hbad : bad.stateKey = none)
    (hpre : ∀ e ∈ pre, e.stateKey.isSome)
    (hnd : (pre.filterMap tupleOf).Nodup) :
    r.Check verify addEvent allowed = .error (.NotStateEvent bad.eventID) := by
  rw [RespState.Check, checkAuthEventsHaveKeys_none hauth, hsplit,
    checkStateEvents_first_nokey pre [] bad post hbad hpre hnd (by simp)]

def evNoKey : Event := ⟨"nk", "m.room.member", none, []⟩

def rX5 : RespState := ⟨[evDupS1, evDupS2, evNoKey], []⟩

theorem check_not_state_event_first_counterexample :
    evNoKey.stateKey = none ∧ evNoKey ∈ rX5.StateEvents ∧
    RespState.Check rX5 verifyOK addNone allowAll =
      .error (.DuplicateStateKey "m.room.member" "alice") :=
  ⟨rfl, by decide, rfl⟩

def rW5 : RespState := ⟨[evDupS1, evNoKey], []⟩

theorem check_not_state_event_first_witness :
    RespState.Check rW5 verifyOK addNone allowAll =
      .error (.NotStateEvent evNoKey.eventID) :=
  check_not_state_event_first rW5 verifyOK addNone allowAll [evDupS1] evNoKey []
    rfl (by decide) rfl (by decide) (by decide)

/-- **C6 (amended)**: `RespState.Check` consults the signature verifier
only through its value on the single list `authChainEvents ++ stateEvents`
(events occurring in both lists appear twice — the list is not
de-duplicated); the verifier is reached only after checks 1–3, whose
failures are independent of the verifier; a verifier failure is returned
unchanged, independently of the builder and the evaluator, so no
authorization work affects the outcome after a verification failure. -/
theorem check_verifier_usage :
    (∀ (r : RespState) (v₁ v₂ : List Event → Except FedError Unit)
      (addEvent : Event → Option String) (allowed : Event → List Event → Option String),
      v₁ (r.AuthEvents ++ r.StateEvents) = v₂ (r.AuthEvents ++ r.StateEvents) →
      r.Check v₁ addEvent allowed = r.Check v₂ addEvent allowed)
    ∧ (∀ (r : RespState) (v : List Event → Except FedError Unit)
      (add₁ add₂ : Event → Option String)
      (allow₁ allow₂ : Event → List Event → Option String) (err : FedError),
      checkAuthEventsHaveKeys r.AuthEvents = none →
      checkStateEvents [] r.StateEvents = none →
      v (r.AuthEvents ++ r.StateEvents) = .error err →
      r.Check v add₁ allow₁ = .error err ∧ r.Check v add₂ allow₂ = .error err)
    ∧ (∀ (r : RespState) (v₁ v₂ : List Event → Except FedError Unit)
      (addEvent : Event → Option String) (allowed : Event → List Event → Option String)
      (err : FedError),
      (checkAuthEventsHaveKeys r.AuthEvents = some err ∨
        (checkAuthEventsHaveKeys r.AuthEvents = none ∧
          checkStateEvents [] r.StateEvents = some err)) →
      r.Check v₁ addEvent allowed = .error err ∧
        r.Check v₂ addEvent allowed = .error err) := by
  refine ⟨?_, ?_, ?_⟩
  · intro r v₁ v₂ addEvent allowed hv
    rcases h1 : checkAuthEventsHaveKeys r.AuthEvents with _ | err
    · rcases h2 : checkStateEvents [] r.StateEvents with _ | err2
      · rw [RespState.Check, RespState.Check, h1, h2]
        simp only [hv]
      · rw [RespState.Check, RespState.Check, h1, h2]
    · rw [RespState.Check, RespState.Check, h1]
  · intro r v add₁ add₂ allow₁ allow₂ err h1 h2 hv
    constructor <;>
      · rw [RespState.Check, h1, h2]
        simp only [hv]
  · intro r v₁ v₂ addEvent allowed err h
    rcases h with h1 | ⟨h1, h2⟩
    · constructor <;> rw [RespState.Check, h1]
    · constructor <;> rw [RespState.Check, h1, h2]

def evBoth : Event := ⟨"dup", "m.room.member", some "alice", []⟩

def rX6 : RespState := ⟨[evBoth], [evBoth]⟩

def verifyLen1 : List Event → Except FedError Unit :=
  fun l => if l.length = 1 then .ok () else .error (.SignatureFailure "duplicate")

theorem check_verifier_usage_counterexample :
    evBoth ∈ rX6.StateEvents ∧ evBoth ∈ rX6.AuthEvents ∧
    verifyLen1 [evBoth] = .ok () ∧
    RespState.Check rX6 verifyLen1 addNone allowAll =
      .error (.SignatureFailure "duplicate") :=
  ⟨by decide, by decide, rfl, rfl⟩

def addRej : Event → Option String := fun _ => some "builder says no"

def allowRej : Event → List Event → Option String := fun _ _ => some "evaluator says no"

def verifySig : List Event → Except FedError Unit :=
  fun _ => .error (.SignatureFailure "sig")

def rX6b : RespState := ⟨[evNoKey], []⟩

theorem check_verifier_usage_witness :
    (RespState.Check rX6 verifyLen1 addNone allowAll =
      RespState.Check rX6 (fun _ => .error (.SignatureFailure "duplicate")) addNone allowAll) ∧
    (RespState.Check rX6 verifySig addNone allowAll = .error (.SignatureFailure "sig") ∧
      RespState.Check rX6 verifySig addRej allowRej = .error (.SignatureFailure "sig")) ∧
    (RespState.Check rX6b verifyOK addNone allowAll =
        .error (.NotStateEvent "nk") ∧
      RespState.Check rX6b verifySig addNone allowAll =
        .error (.NotStateEvent "nk")) :=
  ⟨check_verifier_usage.1 rX6 verifyLen1 (fun _ => .error (.SignatureFailure "duplicate"))
      addNone allowAll rfl,
   check_verifier_usage.2.1 rX6 verifySig addNone addRej allowAll allowRej
      (.SignatureFailure "sig") rfl rfl rfl,
   check_verifier_usage.2.2 rX6b verifyOK verifySig addNone allowAll
      (.NotStateEvent "nk") (Or.inr ⟨rfl, rfl⟩)⟩

theorem buildJoinContext_ok {addEvent : Event → Option String} :
    ∀ (es : List Event) (idx : List (String × Event)) (acc : List Event),
    (∀ e ∈ es, addEvent e = none) →
    buildJoinContext addEvent es idx acc =
      .ok (es.foldl (fun m e => insertEntry m e.eventID e) idx, acc ++ es) := by
  intro es
  induction es with
  | nil =>
    intro idx acc _
    simp [buildJoinContext]
  | cons e rest ih =>
    intro idx acc hadd
    rw [buildJoinContext]
    simp only [hadd e (List.mem_cons_self _ _)]
    rw [ih _ _ (fun x hx => hadd x (List.mem_cons_of_mem _ hx))]
    simp

theorem buildJoinContext_run {addEvent : Event → Option String} {es : List Event}
    (h : ∀ e ∈ es, addEvent e = none) :
    buildJoinContext addEvent es [] [] = .ok (stateIndexOf es, es) := by
  rw [buildJoinContext_ok es [] [] h, stateIndexOf]
  simp

theorem buildJoinContext_err {addEvent : Event → Option String} :
    ∀ (pre : List Event) (bad : Event) (post : List Event)
      (idx : List (String × Event)) (acc : List Event) (msg : String),
    (∀ e ∈ pre, addEvent e = none) → addEvent bad = some msg →
    buildJoinContext addEvent (pre ++ bad :: post) idx acc =
      .error (.AuthEventsAddFailure msg) := by
  intro pre
  induction pre with
  | nil =>
    intro bad post idx acc msg _ hbad
    rw [List.nil_append, buildJoinContext]
    simp only [hbad]
  | cons e rest ih =>
    intro bad post idx acc msg hpre hbad
    rw [List.cons_append, buildJoinContext]
    simp only [hpre e (List.mem_cons_self _ _)]
    exact ih bad post _ _ msg (fun x hx => hpre x (List.mem_cons_of_mem _ hx)) hbad

/-- **C7 (amended)**: in `RespSendJoin.Check` the authorization-set
accumulator is built from the full state-event list *before* the join
event is checked against its own declared dependencies, so a builder
rejection of a state event is reported even when the join event's
own-dependency check would also fail. -/
theorem sendjoin_builder_rejection_first (r : RespSendJoin)
    (verify : List Event → Except FedError Unit) (addEvent : Event → Option String)
    (allowed : Event → List Event → Option String) (joinEvent : Event)
    (pre : List Event) (bad : Event) (post : List Event) (msg : String)
    (hok : r.ToRespState.Check verify addEvent allowed = .ok ())
    (hsplit : r.respState.StateEvents = pre ++ bad :: post)
    (hpre : ∀ e ∈ pre, addEvent e = none)
    (hbad : addEvent bad = some msg) :
    r.Check verify addEvent allowed joinEvent = .error (.AuthEventsAddFailure msg) := by
  rw [RespSendJoin.Check]
  simp only [hok]
  rw [hsplit, buildJoinContext_err pre bad post [] [] msg hpre hbad]

def evS : Event := ⟨"s", "m.room.member", some "alice", []⟩

def rJ7 : RespSendJoin := ⟨⟨[evS], []⟩, "remote.example"⟩

def addRejS : Event → Option String :=
  fun e => if e.eventID = "s" then some "rejected" else none

def allowNotJX : Event → List Event → Option String :=
  fun e _ => if e.eventID = "jx" then some "forbidden" else none

def evJX : Event := ⟨"jx", "m.room.member", some "bob", []⟩

theorem sendjoin_builder_rejection_first_counterexample :
    RespSendJoin.Check rJ7 verifyOK addRejS allowNotJX evJX =
      .error (.AuthEventsAddFailure "rejected") ∧
    checkAllowedByAuthEvents evJX (stateIndexOf rJ7.respState.StateEvents)
        addRejS allowNotJX = .error (.NotAuthorized "jx" "forbidden") :=
  ⟨rfl, rfl⟩

theorem sendjoin_builder_rejection_first_witness :
    RespSendJoin.Check rJ7 verifyOK addRejS allowNotJX evJX =
      .error (.AuthEventsAddFailure "rejected") :=
  sendjoin_builder_rejection_first rJ7 verifyOK addRejS allowNotJX evJX [] evS []
    "rejected" rfl rfl (fun e he => absurd he (List.not_mem_nil e)) rfl

/-- **C8**: when the state-response check passes, every state event is
accepted by the builder, the join event passes the check against its own
declared dependencies, but the evaluator rejects it against the full
supplied state, `RespSendJoin.Check` fails with
`NotAuthorizedBySuppliedState` naming the join event. -/
theorem sendjoin_not_allowed_by_supplied_state (r : RespSendJoin)
    (verify : List Event → Except FedError Unit) (addEvent : Event → Option String)
    (allowed : Event → List Event → Option String) (joinEvent : Event) (reason : String)
    (hok : r.ToRespState.Check verify addEvent allowed = .ok ())
    (hadd : ∀ e ∈ r.respState.StateEvents, addEvent e = none)
    (hjoin : checkAllowedByAuthEvents joinEvent (stateIndexOf r.respState.StateEvents)
      addEvent allowed = .ok ())
    (hreject : allowed joinEvent r.respState.StateEvents = some reason) :
    r.Check verify addEvent allowed joinEvent =
      .error (.NotAuthorizedBySuppliedState joinEvent.eventID reason) := by
  rw [RespSendJoin.Check]
  simp only [hok]
  rw [buildJoinContext_run hadd]
  simp only [hjoin, hreject]

def evJ8 : Event := ⟨"j8", "m.room.member", some "bob", []⟩

def allowBan : Event → List Event → Option String :=
  fun e acc =>
    if e.eventID = "j8" then (if acc.isEmpty then none else some "banned") else none

def rJ8 : RespSendJoin := ⟨⟨[evS], []⟩, "remote.example"⟩

theorem sendjoin_not_allowed_by_supplied_state_witness :
    RespSendJoin.Check rJ8 verifyOK addNone allowBan evJ8 =
      .error (.NotAuthorizedBySuppliedState evJ8.eventID "banned") :=
  sendjoin_not_allowed_by_supplied_state rJ8 verifyOK addNone allowBan evJ8 "banned"
    rfl (fun e he => rfl) rfl rfl

/-- **C10**: the index used for the join event's own-dependency check in
`RespSendJoin.Check` contains the state events only, so a join dependency
whose event exists only in the auth chain fails with `MissingAuthEvent`
naming that dependency and the join event. -/
theorem sendjoin_missing_dep_state_only (r : RespSendJoin)
    (verify : List Event → Except FedError Unit) (addEvent : Event → Option String)
    (allowed : Event → List Event → Option String) (joinEvent : Event)
    (pre : List String) (d : String) (post : List String)
    (hok : r.ToRespState.Check verify addEvent allowed = .ok ())
    (hadd : ∀ e ∈ r.respState.StateEvents, addEvent e = none)
    (hids : joinEvent.authEventIDs = pre ++ d :: post)
    (hpre : ∀ p ∈ pre, ∃ e,
      lookupEvent (stateIndexOf r.respState.StateEvents) p = some e ∧ addEvent e = none)
    (hd : lookupEvent (stateIndexOf r.respState.StateEvents) d = none)
    (hinchain : d ∈ r.respState.AuthEvents.map Event.eventID) :
    r.Check verify addEvent allowed joinEvent =
      .error (.MissingAuthEvent d joinEvent.eventID) := by
  rw [RespSendJoin.Check]
  simp only [hok]
  rw [buildJoinContext_run hadd]
  have hj : checkAllowedByAuthEvents joinEvent (stateIndexOf r.respState.StateEvents)
      addEvent allowed = .error (.MissingAuthEvent d joinEvent.eventID) := by
    rw [checkAllowedByAuthEvents, hids, collectAuthSet_missing pre [] hpre hd]
  simp only [hj]

def evChain : Event := ⟨"chain", "m.room.create", some "", []⟩

def evJ10 : Event := ⟨"j10", "m.room.member", some "bob", ["chain"]⟩

def rJ10 : RespSendJoin := ⟨⟨[evS], [evChain]⟩, "remote.example"⟩

theorem sendjoin_missing_dep_state_only_witness :
    RespSendJoin.Check rJ10 verifyOK addNone allowAll evJ10 =
      .error (.MissingAuthEvent "chain" evJ10.eventID) :=
  sendjoin_missing_dep_state_only rJ10 verifyOK addNone allowAll evJ10 [] "chain" []
    rfl (fun e he => rfl) rfl (fun p hp => absurd hp (List.not_mem_nil p)) rfl
    (by decide)

/-- **C9 (amended)**: `RespInvite.MarshalJSON` encodes the response as the
two-element array `[200, {"event": <event>}]`; `RespInvite.UnmarshalJSON`
rejects every JSON array whose length is not 2 with an invalid-length
error, and accepts any two-element array whose second element carries the
event object — the first element is never inspected, so it need not be the
literal `200`. -/
theorem invite_wire_format :
    (∀ (enc : Event → JValue) (r : RespInvite),
      RespInvite.marshal enc r = .arr [.num 200, .obj [("event", enc r.event)]])
    ∧ (∀ (dec : JValue → Except String Event) (l : List JValue), l.length ≠ 2 →
      RespInvite.unmarshal dec (.arr l) = .error (.invalidLength l.length))
    ∧ (∀ (dec : JValue → Except String Event) (x j : JValue),
      RespInvite.unmarshal dec (.arr [x, .obj [("event", j)]]) =
        match dec j with
        | .error m => .error (.eventDecode m)
        | .ok e => .ok ⟨e⟩) := by
  refine ⟨fun enc r => rfl, ?_, ?_⟩
  · intro dec l hl
    match l with
    | [] => rfl
    | [a] => rfl
    | [a, b] => exact absurd rfl hl
    | a :: b :: c :: rest => rfl
  · intro dec x j
    rw [RespInvite.unmarshal, decodeInviteFields]
    simp [lookupJ]

def decStr : JValue → Except String Event :=
  fun j =>
    match j with
    | .str s => .ok ⟨s, "", none, []⟩
    | _ => .error "bad event"

theorem invite_wire_format_counterexample :
    RespInvite.unmarshal decStr (.arr [.num 7, .obj [("event", .str "e1")]]) =
      .ok ⟨⟨"e1", "", none, []⟩⟩ := rfl

def encID : Event → JValue := fun e => .str e.eventID

theorem invite_wire_format_witness :
    RespInvite.marshal encID ⟨evS⟩ = .arr [.num 200, .obj [("event", encID evS)]] ∧
    RespInvite.unmarshal decStr (.arr [.num 200]) = .error (.invalidLength 1) ∧
    RespInvite.unmarshal decStr (.arr [.num 200, .obj [("event", .str "e2")]]) =
      .ok ⟨⟨"e2", "", none, []⟩⟩ :=
  ⟨invite_wire_format.1 encID ⟨evS⟩,
   invite_wire_format.2.1 decStr [.num 200] (by decide),
   invite_wire_format.2.2 decStr (.num 200) (.str "e2")⟩
